import Mathlib

/-!
Verification of the streaming multi-pattern byte-sequence matcher of the
`masker` package (`matches`, `matcher`, `sequenceDetector`).

Modelling choices (shallow embedding of the Go source):

* Bytes are modelled as `Nat`; the code only ever compares bytes for
  equality, so no arithmetic modulo 256 occurs.
* The Go `int64` stream counter and the `int64` match offsets are modelled
  as `Int`; the counter only grows by chunk lengths, so no wrap-around is
  reachable in any stated property.
* The Go map `matches` (`map[int64]int`) is an association list with unique
  keys (an invariant of every table the code builds, proved below);
  `Matches.lookup` is the map read `m[index]`, `Matches.setVal` the map
  assignment `m[index] = length`.
* The detector cursor `currentIndex` is a Go `int` that stays nonnegative
  (`findShift` never exceeds it, proved below), so it is modelled as `Nat`;
  the one subtraction `m.currentIndex -= m.findShift()` is exact.
* A fallible index expression `m.sequence[i]` (a runtime panic in Go when
  out of bounds) is modelled with the `Option`-valued index `l[i]?`; the
  panic is `none`, which
  propagates through `writeByte`, `write` and `writeAll`.
* Go's `writeByte` calls itself recursively; because the recursive call is
  guarded by `m.sequence[m.currentIndex] == in`, the callee always takes
  the non-recursive first branch, so the recursion depth never exceeds two.
  It is therefore embedded as `writeByteFuel` with a fuel argument,
  instantiated at fuel 2; the lemma `writeByteFuel_ge_two` proves that any
  larger fuel computes the same function, so fuel 2 is faithful.
-/

/-- The Go map type `matches = map[int64]int`, as an association list. -/
abbrev Matches : Type := List (Int × Nat)

/-- Map read `m[index]`: the value of the first entry with the given key. -/
def Matches.lookup : Matches → Int → Option Nat
  | [], _ => none
  | (k, v) :: rest, key => if k = key then some v else Matches.lookup rest key

/-- Map assignment `m[index] = length`: replace the entry in place, or append
a fresh entry when the key is absent. -/
def Matches.setVal : Matches → Int → Nat → Matches
  | [], key, len => [(key, len)]
  | (k, v) :: rest, key, len =>
    if k = key then (key, len) :: rest else (k, v) :: Matches.setVal rest key len

/-- Source `Matches.add`: insert a match, keeping the longer length when the
offset is already present (`if !exists || existing < length`). -/
def Matches.add (m : Matches) (index : Int) (length : Nat) : Matches :=
  match Matches.lookup m index with
  | none => Matches.setVal m index length
  | some existing =>
    if existing < length then Matches.setVal m index length else m

/-- Maximum on `Option Nat` with `none` as identity; the value semantics of
repeated `Matches.add` at one key. -/
def omax : Option Nat → Option Nat → Option Nat
  | a, none => a
  | none, some v => some v
  | some u, some v => some (max u v)

/-- Fold a list of (offset, length) events into a table with `Matches.add`. -/
def Matches.insertAll (m : Matches) (es : List (Int × Nat)) : Matches :=
  es.foldl (fun acc e => Matches.add acc e.1 e.2) m

/-- The maximum length attached to a key in a list of events. -/
def emax : List (Int × Nat) → Int → Option Nat
  | [], _ => none
  | e :: rest, key => omax (if e.1 = key then some e.2 else none) (emax rest key)

/-- The keys of a table. -/
def keysOf (m : Matches) : List Int := m.map Prod.fst

/-- Key uniqueness, the Go-map wellformedness invariant of the embedding. -/
def nodupKeys (m : Matches) : Prop := (keysOf m).Nodup

/-- Source `sequenceDetector`: the per-pattern state machine
(`sequence`, `currentIndex`). -/
structure sequenceDetector where
  sequence : List Nat
  currentIndex : Nat
  deriving DecidableEq

/-- Inner loop of `findShift`: whether `sequence[i] == sequence[i+offset]`
for every `i < currentIndex - offset`. Both indices stay below
`currentIndex`, so whenever `currentIndex` is at most the pattern length
every read is in bounds; the (unreachable from `writeByte`) out-of-range
read is modelled by `List.getD` with default 0. -/
def shiftOk (seq : List Nat) (cursor offset : Nat) : Bool :=
  (List.range (cursor - offset)).all fun i => seq.getD i 0 == seq.getD (i + offset) 0

/-- Source `sequenceDetector.findShift`: the first `offset` in
`1..currentIndex` whose shifted prefix matches (the Go `for` loop returns
the first hit), and `currentIndex` itself when the loop falls through. -/
def sequenceDetector.findShift (m : sequenceDetector) : Nat :=
  match (List.range' 1 m.currentIndex).find? (shiftOk m.sequence m.currentIndex) with
  | some offset => offset
  | none => m.currentIndex

/-- Source `sequenceDetector.writeByte` with an explicit fuel bounding the
recursion depth. The Go original recurses on itself after the cursor shift;
the guard `m.sequence[m.currentIndex] == in` in front of the call forces
the callee into the non-recursive first branch, so fuel 2 is exact
(theorem `writeByteFuel_ge_two`). A `none` result is a Go runtime panic
(index out of range). -/
def writeByteFuel : Nat → sequenceDetector → Nat → Option (Bool × sequenceDetector)
  | 0, _, _ => none
  | fuel + 1, m, b =>
    match m.sequence[m.currentIndex]? with
    | none => none
    | some c =>
      if c = b then
        if m.currentIndex + 1 = m.sequence.length then
          some (true, { m with currentIndex := 0 })
        else
          some (false, { m with currentIndex := m.currentIndex + 1 })
      else
        match m.sequence[m.currentIndex - m.findShift]? with
        | none => none
        | some c2 =>
          if c2 = b then
            writeByteFuel fuel { m with currentIndex := m.currentIndex - m.findShift } b
          else
            some (false, { m with currentIndex := m.currentIndex - m.findShift })

/-- Source `sequenceDetector.writeByte` (fuel 2 covers every execution). -/
def sequenceDetector.writeByte (m : sequenceDetector) (b : Nat) :
    Option (Bool × sequenceDetector) :=
  writeByteFuel 2 m b

/-- Wellformedness of a resting detector: the cursor is a valid index into
the pattern (which therefore is non-empty). -/
def detectorValid (d : sequenceDetector) : Prop :=
  d.currentIndex < d.sequence.length

instance (d : sequenceDetector) : Decidable (detectorValid d) := by
  unfold detectorValid
  infer_instance

/-- Source `matcher`: the detector collection plus the absolute stream
counter `currentIndex`. -/
structure matcher where
  matchers : List sequenceDetector
  currentIndex : Int
  deriving DecidableEq

/-- Source `newMatcher`: one fresh detector per pattern, in order; the
detector cursors and the stream counter start at Go zero values. No
validation of the patterns takes place. -/
def newMatcher (sequences : List (List Nat)) : matcher :=
  { matchers := sequences.map fun seq => { sequence := seq, currentIndex := 0 },
    currentIndex := 0 }

/-- Inner loop of `matcher.write` over the detector list for one byte `b`
at chunk index `i`: each detector consumes the byte, and a reported match
inserts `(currentIndex + i - len(sequence) + 1, len(sequence))` into the
accumulated table. -/
def writeByteAll (cur : Int) (i : Nat) (b : Nat) :
    List sequenceDetector → Matches → Option (Matches × List sequenceDetector)
  | [], res => some (res, [])
  | d :: ds, res =>
    match d.writeByte b with
    | none => none
    | some (mtch, d') =>
      match
        writeByteAll cur i b ds
          (if mtch then
            Matches.add res (cur + (i : Int) - (d.sequence.length : Int) + 1)
              d.sequence.length
          else res) with
      | none => none
      | some (resF, ds') => some (resF, d' :: ds')

/-- Outer loop of `matcher.write` over the chunk bytes; `i` is the running
chunk index of the Go `for i, b := range in`. -/
def writeLoop (cur : Int) : Nat → List Nat → List sequenceDetector → Matches →
    Option (Matches × List sequenceDetector)
  | _, [], ds, res => some (res, ds)
  | i, b :: bs, ds, res =>
    match writeByteAll cur i b ds res with
    | none => none
    | some (res', ds') => writeLoop cur (i + 1) bs ds' res'

/-- Source `matcher.write`: drive every chunk byte through every detector,
collecting matches into a table created fresh for this call (`res :=
matches\x7b\x7d`), then advance the stream counter by the chunk length. -/
def matcher.write (mb : matcher) (input : List Nat) : Option (Matches × matcher) :=
  match writeLoop mb.currentIndex 0 input mb.matchers [] with
  | none => none
  | some (res, ds) =>
    some (res,
      { matchers := ds, currentIndex := mb.currentIndex + (input.length : Int) })

/-- Sequential `write` calls, one per chunk, collecting the returned tables. -/
def matcher.writeAll (mb : matcher) : List (List Nat) → Option (List Matches × matcher)
  | [] => some ([], mb)
  | c :: cs =>
    match mb.write c with
    | none => none
    | some (res, mb') =>
      match mb'.writeAll cs with
      | none => none
      | some (tables, mbf) => some (res :: tables, mbf)

/-- Merge of per-call tables under the keep-longest insert. -/
def mergeAll (tables : List Matches) : Matches :=
  tables.foldl Matches.insertAll []

/-- Wellformedness of a matcher: every detector is wellformed. -/
def matcherValid (mb : matcher) : Prop := ∀ d ∈ mb.matchers, detectorValid d

instance (mb : matcher) : Decidable (matcherValid mb) := by
  unfold matcherValid
  infer_instance

/-- The table of a successful `write` (the empty table on a panic); used to
state concrete examples. -/
def writeTableD (mb : matcher) (input : List Nat) : Matches :=
  ((mb.write input).map Prod.fst).getD []

/-- The matcher state after a successful `write` (identity on a panic). -/
def writeState (mb : matcher) (input : List Nat) : matcher :=
  ((mb.write input).map Prod.snd).getD mb

/-- Proof device: the list of (offset, length) pairs the detectors report
for one byte at absolute stream position `pos`, together with the advanced
detector states; `writeByteAll` equals folding these events into its
accumulator (`writeByteAll_eq_byteEvents`). -/
def byteEvents (pos : Int) (b : Nat) :
    List sequenceDetector → Option (List (Int × Nat) × List sequenceDetector)
  | [] => some ([], [])
  | d :: ds =>
    match d.writeByte b with
    | none => none
    | some (mtch, d') =>
      match byteEvents pos b ds with
      | none => none
      | some (es, ds') =>
        some ((if mtch then
            [(pos - (d.sequence.length : Int) + 1, d.sequence.length)]
          else []) ++ es, d' :: ds')

/-- Proof device: all events of a chunk whose first byte sits at absolute
stream position `pos`. -/
def chunkEvents (pos : Int) : List Nat → List sequenceDetector →
    Option (List (Int × Nat) × List sequenceDetector)
  | [], ds => some ([], ds)
  | b :: bs, ds =>
    match byteEvents pos b ds with
    | none => none
    | some (es1, ds') =>
      match chunkEvents (pos + 1) bs ds' with
      | none => none
      | some (es2, ds'') => some (es1 ++ es2, ds'')

theorem omax_none_left (b : Option Nat) : omax none b = b := by
  cases b <;> rfl

theorem omax_none_right (a : Option Nat) : omax a none = a := by
  cases a <;> rfl

theorem omax_assoc (a b c : Option Nat) :
    omax (omax a b) c = omax a (omax b c) := by
  cases a <;> cases b <;> cases c <;> simp [omax, Nat.max_assoc]

theorem omax_comm (a b : Option Nat) : omax a b = omax b a := by
  cases a <;> cases b <;> simp [omax, Nat.max_comm]

theorem lookup_setVal (m : Matches) (key : Int) (len : Nat) (k : Int) :
    Matches.lookup (Matches.setVal m key len) k =
      if key = k then some len else Matches.lookup m k := by
  induction m with
  | nil =>
    simp only [Matches.setVal, Matches.lookup]
  | cons e rest ih =>
    obtain ⟨a, b⟩ := e
    by_cases hak : a = key
    · subst hak
      simp only [Matches.setVal, if_pos rfl, Matches.lookup]
      by_cases hk : a = k <;> simp [hk]
    · simp only [Matches.setVal, if_neg hak, Matches.lookup, ih]
      by_cases hk : key = k
      · subst hk
        simp [if_neg hak]
      · simp [hk]

theorem lookup_eq_none_iff (m : Matches) (k : Int) :
    Matches.lookup m k = none ↔ k ∉ keysOf m := by
  induction m with
  | nil => simp [Matches.lookup, keysOf]
  | cons e rest ih =>
    obtain ⟨a, b⟩ := e
    by_cases hak : a = k
    · subst hak
      simp [Matches.lookup, keysOf]
    · simp only [Matches.lookup, if_neg hak, ih, keysOf, List.map_cons,
        List.mem_cons, not_or]
      simp [Ne.symm hak]

theorem lookup_add (m : Matches) (key : Int) (len : Nat) (k : Int) :
    Matches.lookup (Matches.add m key len) k =
      omax (Matches.lookup m k) (if key = k then some len else none) := by
  unfold Matches.add
  cases h : Matches.lookup m key with
  | none =>
    rw [lookup_setVal]
    by_cases hk : key = k
    · subst hk
      simp [h, omax_none_left]
    · simp [hk, omax_none_right]
  | some e =>
    by_cases he : e < len
    · simp only [if_pos he]
      rw [lookup_setVal]
      by_cases hk : key = k
      · subst hk
        simp [h, omax, Nat.max_eq_right (Nat.le_of_lt he)]
      · simp [hk, omax_none_right]
    · simp only [if_neg he]
      by_cases hk : key = k
      · subst hk
        simp [h, omax, Nat.max_eq_left (Nat.le_of_not_lt he)]
      · simp [hk, omax_none_right]

theorem insertAll_nil (m : Matches) : Matches.insertAll m [] = m := rfl

theorem insertAll_cons (m : Matches) (e : Int × Nat) (es : List (Int × Nat)) :
    Matches.insertAll m (e :: es) =
      Matches.insertAll (Matches.add m e.1 e.2) es := rfl

theorem insertAll_append (m : Matches) (es1 es2 : List (Int × Nat)) :
    Matches.insertAll m (es1 ++ es2) =
      Matches.insertAll (Matches.insertAll m es1) es2 := by
  simp [Matches.insertAll, List.foldl_append]

theorem lookup_insertAll (es : List (Int × Nat)) (m : Matches) (k : Int) :
    Matches.lookup (Matches.insertAll m es) k =
      omax (Matches.lookup m k) (emax es k) := by
  induction es generalizing m with
  | nil => simp [insertAll_nil, emax, omax_none_right]
  | cons e rest ih =>
    rw [insertAll_cons, ih, lookup_add, omax_assoc]
    rfl

theorem emax_append (es1 es2 : List (Int × Nat)) (k : Int) :
    emax (es1 ++ es2) k = omax (emax es1 k) (emax es2 k) := by
  induction es1 with
  | nil => simp [emax, omax_none_left]
  | cons e rest ih => simp [emax, ih, omax_assoc]

theorem keysOf_setVal_mem (m : Matches) (key : Int) (len : Nat)
    (h : key ∈ keysOf m) : keysOf (Matches.setVal m key len) = keysOf m := by
  induction m with
  | nil => simp [keysOf] at h
  | cons e rest ih =>
    obtain ⟨a, b⟩ := e
    by_cases hak : a = key
    · subst hak
      simp [Matches.setVal, keysOf]
    · have hmem : key ∈ keysOf rest := by
        rcases (by simpa only [keysOf, List.map_cons, List.mem_cons] using h :
            key = a ∨ key ∈ keysOf rest) with hc | hc
        · exact absurd hc.symm hak
        · exact hc
      simp only [Matches.setVal, if_neg hak, keysOf, List.map_cons,
        List.cons.injEq, true_and]
      exact ih hmem

theorem keysOf_setVal_not_mem (m : Matches) (key : Int) (len : Nat)
    (h : key ∉ keysOf m) :
    keysOf (Matches.setVal m key len) = keysOf m ++ [key] := by
  induction m with
  | nil => simp [Matches.setVal, keysOf]
  | cons e rest ih =>
    obtain ⟨a, b⟩ := e
    have hak : a ≠ key := fun hcontra =>
      h (by simp only [keysOf, List.map_cons, List.mem_cons]; exact Or.inl hcontra.symm)
    have hrest : key ∉ keysOf rest := fun hcontra =>
      h (by simp only [keysOf, List.map_cons, List.mem_cons]; exact Or.inr hcontra)
    simp only [Matches.setVal, if_neg hak, keysOf, List.map_cons,
      List.cons_append, List.cons.injEq, true_and]
    exact ih hrest

theorem nodup_add (m : Matches) (key : Int) (len : Nat)
    (h : nodupKeys m) : nodupKeys (Matches.add m key len) := by
  unfold Matches.add
  cases hl : Matches.lookup m key with
  | none =>
    have hmem : key ∉ keysOf m := (lookup_eq_none_iff m key).mp hl
    unfold nodupKeys
    rw [keysOf_setVal_not_mem m key len hmem]
    simp [List.nodup_append, h, hmem]
    exact h
  | some e =>
    have hmem : key ∈ keysOf m := by
      by_contra hc
      rw [(lookup_eq_none_iff m key).mpr hc] at hl
      exact Option.noConfusion hl
    by_cases he : e < len
    · simp only [if_pos he]
      unfold nodupKeys
      rw [keysOf_setVal_mem m key len hmem]
      exact h
    · simpa [if_neg he] using h

theorem nodup_insertAll (es : List (Int × Nat)) (m : Matches)
    (h : nodupKeys m) : nodupKeys (Matches.insertAll m es) := by
  induction es generalizing m with
  | nil => simpa [insertAll_nil] using h
  | cons e rest ih => exact ih _ (nodup_add m e.1 e.2 h)

theorem emax_eq_none_of_not_mem (es : List (Int × Nat)) (k : Int)
    (h : k ∉ es.map Prod.fst) : emax es k = none := by
  induction es with
  | nil => rfl
  | cons e rest ih =>
    have hek : e.1 ≠ k := by
      intro hc
      exact h (by simp [hc])
    have hrest : k ∉ rest.map Prod.fst := by
      intro hc
      exact h (by simp [hc])
    simp [emax, hek, ih hrest, omax_none_left]

theorem emax_eq_lookup (m : Matches) (k : Int) (h : nodupKeys m) :
    emax m k = Matches.lookup m k := by
  induction m with
  | nil => rfl
  | cons e rest ih =>
    obtain ⟨a, b⟩ := e
    have hnd : nodupKeys rest := by
      unfold nodupKeys keysOf at h ⊢
      exact (List.nodup_cons.mp h).2
    by_cases hak : a = k
    · subst hak
      have hnmem : a ∉ rest.map Prod.fst := by
        unfold nodupKeys keysOf at h
        exact (List.nodup_cons.mp h).1
      simp [emax, Matches.lookup, emax_eq_none_of_not_mem rest a hnmem,
        omax_none_right]
    · simp [emax, Matches.lookup, hak, ih hnd, omax_none_left]

theorem shiftOk_self (seq : List Nat) (cursor : Nat) :
    shiftOk seq cursor cursor = true := by
  simp [shiftOk]

theorem findShift_le (m : sequenceDetector) :
    m.findShift ≤ m.currentIndex := by
  unfold sequenceDetector.findShift
  cases h : (List.range' 1 m.currentIndex).find? (shiftOk m.sequence m.currentIndex) with
  | none => exact Nat.le_refl _
  | some o =>
    have hmem := List.mem_of_find?_eq_some h
    have := List.mem_range'_1.mp hmem
    show o ≤ m.currentIndex
    omega

theorem findShift_pos (m : sequenceDetector) (h1 : 1 ≤ m.currentIndex) :
    1 ≤ m.findShift := by
  unfold sequenceDetector.findShift
  cases h : (List.range' 1 m.currentIndex).find? (shiftOk m.sequence m.currentIndex) with
  | none => exact h1
  | some o =>
    have hmem := List.mem_of_find?_eq_some h
    have := List.mem_range'_1.mp hmem
    show 1 ≤ o
    omega

theorem find?_shiftOk_isSome (m : sequenceDetector) (h1 : 1 ≤ m.currentIndex) :
    ((List.range' 1 m.currentIndex).find? (shiftOk m.sequence m.currentIndex)).isSome := by
  rw [List.find?_isSome]
  refine ⟨m.currentIndex, ?_, shiftOk_self _ _⟩
  rw [List.mem_range'_1]
  omega

theorem writeByteFuel_succ_of_match (fuel : Nat) (m : sequenceDetector) (b : Nat)
    (h : m.sequence[m.currentIndex]? = some b) :
    writeByteFuel (fuel + 1) m b =
      if m.currentIndex + 1 = m.sequence.length then
        some (true, { m with currentIndex := 0 })
      else
        some (false, { m with currentIndex := m.currentIndex + 1 }) := by
  simp [writeByteFuel, h]

theorem writeByteFuel_ge_two (n : Nat) (m : sequenceDetector) (b : Nat) :
    writeByteFuel (n + 2) m b = writeByteFuel 2 m b := by
  show writeByteFuel (n + 1 + 1) m b = writeByteFuel (1 + 1) m b
  cases h : m.sequence[m.currentIndex]? with
  | none => simp [writeByteFuel, h]
  | some c =>
    by_cases hc : c = b
    · rw [writeByteFuel_succ_of_match (n + 1) m b (by rw [h, hc]),
        writeByteFuel_succ_of_match 1 m b (by rw [h, hc])]
    · cases h2 : m.sequence[m.currentIndex - m.findShift]? with
      | none => simp [writeByteFuel, h, hc, h2]
      | some c2 =>
        by_cases hc2 : c2 = b
        · simp [writeByteFuel, h, hc, h2, hc2]
        · simp [writeByteFuel, h, hc, h2, hc2]

theorem writeByte_total (d : sequenceDetector) (b : Nat) (h : detectorValid d) :
    ∃ r d', d.writeByte b = some (r, d') ∧ d'.sequence = d.sequence ∧
      detectorValid d' := by
  have h' : d.currentIndex < d.sequence.length := h
  have hlen : 0 < d.sequence.length := Nat.lt_of_le_of_lt (Nat.zero_le _) h
  have hget : d.sequence[d.currentIndex]? = some d.sequence[d.currentIndex] :=
    List.getElem?_eq_getElem h
  have hsub : d.currentIndex - d.findShift < d.sequence.length :=
    Nat.lt_of_le_of_lt (Nat.sub_le _ _) h
  have hget2 : d.sequence[d.currentIndex - d.findShift]? =
      some d.sequence[d.currentIndex - d.findShift] :=
    List.getElem?_eq_getElem hsub
  unfold sequenceDetector.writeByte
  by_cases hcb : d.sequence[d.currentIndex] = b
  · rw [writeByteFuel_succ_of_match 1 d b (by rw [hget, hcb])]
    by_cases hend : d.currentIndex + 1 = d.sequence.length
    · exact ⟨true, { d with currentIndex := 0 }, by rw [if_pos hend], rfl, hlen⟩
    · exact ⟨false, { d with currentIndex := d.currentIndex + 1 },
        by rw [if_neg hend], rfl,
        by show d.currentIndex + 1 < d.sequence.length; omega⟩
  · by_cases hcb2 : d.sequence[d.currentIndex - d.findShift] = b
    · have hstep : writeByteFuel 2 d b =
          writeByteFuel 1 { d with currentIndex := d.currentIndex - d.findShift } b := by
        simp [writeByteFuel, hget, hcb, hget2, hcb2]
      rw [hstep, writeByteFuel_succ_of_match 0 _ b (by rw [hget2, hcb2])]
      by_cases hend : d.currentIndex - d.findShift + 1 = d.sequence.length
      · exact ⟨true, { d with currentIndex := 0 }, by rw [if_pos hend], rfl, hlen⟩
      · exact ⟨false, { d with currentIndex := d.currentIndex - d.findShift + 1 },
          by rw [if_neg hend], rfl,
          by show d.currentIndex - d.findShift + 1 < d.sequence.length; omega⟩
    · have hstep : writeByteFuel 2 d b =
          some (false, { d with currentIndex := d.currentIndex - d.findShift }) := by
        simp [writeByteFuel, hget, hcb, hget2, hcb2]
      rw [hstep]
      exact ⟨false, { d with currentIndex := d.currentIndex - d.findShift }, rfl, rfl, hsub⟩

theorem writeByteAll_eq_byteEvents (cur : Int) (i : Nat) (b : Nat)
    (ds : List sequenceDetector) (res : Matches) :
    writeByteAll cur i b ds res =
      match byteEvents (cur + (i : Int)) b ds with
      | none => none
      | some (es, ds') => some (Matches.insertAll res es, ds') := by
  induction ds generalizing res with
  | nil => simp [writeByteAll, byteEvents, insertAll_nil]
  | cons d ds ih =>
    simp only [writeByteAll, byteEvents]
    cases d.writeByte b with
    | none => rfl
    | some p =>
      obtain ⟨mtch, d'⟩ := p
      dsimp only
      rw [ih]
      cases byteEvents (cur + (i : Int)) b ds with
      | none => rfl
      | some q =>
        obtain ⟨es, ds'⟩ := q
        cases mtch with
        | true => simp [List.singleton_append, insertAll_cons]
        | false => simp

theorem writeLoop_eq_chunkEvents (cur : Int) (bs : List Nat) (i : Nat)
    (ds : List sequenceDetector) (res : Matches) :
    writeLoop cur i bs ds res =
      match chunkEvents (cur + (i : Int)) bs ds with
      | none => none
      | some (es, ds') => some (Matches.insertAll res es, ds') := by
  induction bs generalizing i ds res with
  | nil => simp [writeLoop, chunkEvents, insertAll_nil]
  | cons b bs ih =>
    simp only [writeLoop, chunkEvents]
    rw [writeByteAll_eq_byteEvents]
    cases byteEvents (cur + (i : Int)) b ds with
    | none => rfl
    | some p =>
      obtain ⟨es1, ds1⟩ := p
      dsimp only
      rw [ih, show ((i + 1 : Nat) : Int) = (i : Int) + 1 from by push_cast; ring,
        ← Int.add_assoc]
      cases chunkEvents (cur + (i : Int) + 1) bs ds1 with
      | none => rfl
      | some q =>
        obtain ⟨es2, ds2⟩ := q
        simp [insertAll_append]

theorem write_eq_chunkEvents (mb : matcher) (input : List Nat) :
    mb.write input =
      match chunkEvents mb.currentIndex input mb.matchers with
      | none => none
      | some (es, ds') =>
        some (Matches.insertAll [] es,
          { matchers := ds',
            currentIndex := mb.currentIndex + (input.length : Int) }) := by
  unfold matcher.write
  rw [writeLoop_eq_chunkEvents,
    show mb.currentIndex + ((0 : Nat) : Int) = mb.currentIndex from by simp]
  cases chunkEvents mb.currentIndex input mb.matchers with
  | none => rfl
  | some p =>
    obtain ⟨es, ds'⟩ := p
    rfl

theorem chunkEvents_append (A B : List Nat) (pos : Int) (ds : List sequenceDetector) :
    chunkEvents pos (A ++ B) ds =
      match chunkEvents pos A ds with
      | none => none
      | some (es1, ds1) =>
        match chunkEvents (pos + (A.length : Int)) B ds1 with
        | none => none
        | some (es2, ds2) => some (es1 ++ es2, ds2) := by
  induction A generalizing pos ds with
  | nil =>
    simp only [List.nil_append, chunkEvents, List.length_nil, Nat.cast_zero,
      Int.add_zero]
    cases chunkEvents pos B ds with
    | none => rfl
    | some p =>
      obtain ⟨es, ds'⟩ := p
      simp
  | cons a A ih =>
    simp only [List.cons_append, chunkEvents, List.length_cons]
    cases byteEvents pos a ds with
    | none => rfl
    | some p =>
      obtain ⟨es1, ds1⟩ := p
      dsimp only
      rw [show A.append B = A ++ B from rfl, ih,
        show pos + ((A.length + 1 : Nat) : Int) = pos + 1 + (A.length : Int) from by
          push_cast; ring]
      cases chunkEvents (pos + 1) A ds1 with
      | none => rfl
      | some q =>
        obtain ⟨esA, dsA⟩ := q
        dsimp only
        cases chunkEvents (pos + 1 + (A.length : Int)) B dsA with
        | none => rfl
        | some r =>
          obtain ⟨es2, ds2⟩ := r
          simp [List.append_assoc]

theorem byteEvents_total (pos : Int) (b : Nat) (ds : List sequenceDetector)
    (h : ∀ d ∈ ds, detectorValid d) :
    ∃ es ds', byteEvents pos b ds = some (es, ds') ∧
      (∀ d' ∈ ds', detectorValid d') ∧
      ∀ e ∈ es, ∃ d ∈ ds, ∃ d2, d.writeByte b = some (true, d2) ∧
        e = (pos - (d.sequence.length : Int) + 1, d.sequence.length) := by
  induction ds with
  | nil => exact ⟨[], [], rfl, by simp, by simp⟩
  | cons d ds ih =>
    obtain ⟨r, d', hw, hseq, hval⟩ := writeByte_total d b (h d (by simp))
    obtain ⟨es, ds', heq, hval', hshape⟩ := ih fun d0 hd0 => h d0 (by simp [hd0])
    refine ⟨(if r then [(pos - (d.sequence.length : Int) + 1, d.sequence.length)]
        else []) ++ es, d' :: ds', by simp [byteEvents, hw, heq], ?_, ?_⟩
    · intro x hx
      rcases List.mem_cons.mp hx with h1 | h1
      · subst h1
        exact hval
      · exact hval' _ h1
    · intro e he
      rcases List.mem_append.mp he with h1 | h1
      · cases r with
        | true =>
          simp at h1
          exact ⟨d, by simp, d', hw, by rw [h1]⟩
        | false => simp at h1
      · obtain ⟨d0, hd0, d2, hwb, hee⟩ := hshape e h1
        exact ⟨d0, by simp [hd0], d2, hwb, hee⟩

theorem chunkEvents_total (bs : List Nat) (pos : Int) (ds : List sequenceDetector)
    (h : ∀ d ∈ ds, detectorValid d) :
    ∃ es ds', chunkEvents pos bs ds = some (es, ds') ∧
      ∀ d' ∈ ds', detectorValid d' := by
  induction bs generalizing pos ds with
  | nil => exact ⟨[], ds, rfl, h⟩
  | cons b bs ih =>
    obtain ⟨es1, ds1, h1, hv1, _⟩ := byteEvents_total pos b ds h
    obtain ⟨es2, ds2, h2, hv2⟩ := ih (pos + 1) ds1 hv1
    exact ⟨es1 ++ es2, ds2, by simp [chunkEvents, h1, h2], hv2⟩

theorem chunkEvents_shape (bs : List Nat) (pos : Int) (ds : List sequenceDetector)
    (h : ∀ d ∈ ds, detectorValid d) :
    ∀ es dsf, chunkEvents pos bs ds = some (es, dsf) →
      ∀ e ∈ es, ∃ i, i < bs.length ∧
        ∃ esi dsi, chunkEvents pos (bs.take i) ds = some (esi, dsi) ∧
          ∃ d ∈ dsi, ∃ d2, d.writeByte (bs.getD i 0) = some (true, d2) ∧
            e = (pos + (i : Int) - (d.sequence.length : Int) + 1,
              d.sequence.length) := by
  induction bs generalizing pos ds with
  | nil =>
    intro es dsf heq e he
    simp only [chunkEvents, Option.some.injEq, Prod.mk.injEq] at heq
    rw [← heq.1] at he
    simp at he
  | cons b bs ih =>
    intro es dsf heq e he
    simp only [chunkEvents] at heq
    cases h1 : byteEvents pos b ds with
    | none =>
      rw [h1] at heq
      cases heq
    | some p =>
      obtain ⟨es1, ds1⟩ := p
      rw [h1] at heq
      dsimp only at heq
      cases h2 : chunkEvents (pos + 1) bs ds1 with
      | none =>
        rw [h2] at heq
        cases heq
      | some q =>
        obtain ⟨es2, ds2⟩ := q
        rw [h2] at heq
        dsimp only at heq
        obtain ⟨hes, hdsf⟩ : es1 ++ es2 = es ∧ ds2 = dsf := by
          injection heq with heq'
          exact Prod.mk.injEq .. |>.mp heq'
        obtain ⟨esT, dsT, h1', hv1, hshape1⟩ := byteEvents_total pos b ds h
        obtain ⟨hesT, hdsT⟩ : es1 = esT ∧ ds1 = dsT := by
          rw [h1] at h1'
          injection h1' with h1''
          exact Prod.mk.injEq .. |>.mp h1''
        subst hesT hdsT
        rw [← hes] at he
        rcases List.mem_append.mp he with hmem | hmem
        · obtain ⟨d, hd, d2, hwb, hee⟩ := hshape1 e hmem
          refine ⟨0, by simp, [], ds, rfl, d, hd, d2, ?_, ?_⟩
          · simpa using hwb
          · rw [hee]
            simp
        · obtain ⟨i, hi, esi, dsi, htake, d, hd, d2, hwb, hee⟩ :=
            ih (pos + 1) ds1 hv1 es2 ds2 h2 e hmem
          refine ⟨i + 1, by simpa using hi, es1 ++ esi, dsi, ?_, d, hd, d2, ?_, ?_⟩
          · simp [List.take_succ_cons, chunkEvents, h1, htake]
          · simpa using hwb
          · rw [hee, Prod.mk.injEq]
            exact ⟨by push_cast; ring, rfl⟩

theorem write_characterize (mb : matcher) (input : List Nat) (h : matcherValid mb) :
    ∃ es dsf, chunkEvents mb.currentIndex input mb.matchers = some (es, dsf) ∧
      mb.write input = some (Matches.insertAll [] es,
        { matchers := dsf,
          currentIndex := mb.currentIndex + (input.length : Int) }) ∧
      matcherValid
        { matchers := dsf,
          currentIndex := mb.currentIndex + (input.length : Int) } := by
  obtain ⟨es, dsf, heq, hv⟩ := chunkEvents_total input mb.currentIndex mb.matchers h
  refine ⟨es, dsf, heq, ?_, ?_⟩
  · rw [write_eq_chunkEvents, heq]
  · intro d hd
    exact hv d hd

theorem write_nodup (mb : matcher) (input : List Nat) (res : Matches)
    (mb' : matcher) (h : mb.write input = some (res, mb')) : nodupKeys res := by
  rw [write_eq_chunkEvents] at h
  cases heq : chunkEvents mb.currentIndex input mb.matchers with
  | none =>
    rw [heq] at h
    cases h
  | some p =>
    obtain ⟨es, dsf⟩ := p
    rw [heq] at h
    dsimp only at h
    injection h with h'
    obtain ⟨h1, _⟩ := Prod.mk.injEq .. |>.mp h'
    rw [← h1]
    exact nodup_insertAll es [] List.nodup_nil

theorem writeAll_characterize (chunks : List (List Nat)) (mb : matcher)
    (h : matcherValid mb) :
    ∃ tables mbf tab, mb.writeAll chunks = some (tables, mbf) ∧
      mb.write chunks.flatten = some (tab, mbf) ∧ matcherValid mbf ∧
      ∀ acc k, Matches.lookup (tables.foldl Matches.insertAll acc) k =
        omax (Matches.lookup acc k) (Matches.lookup tab k) := by
  induction chunks generalizing mb with
  | nil =>
    refine ⟨[], mb, [], rfl, ?_, h, ?_⟩
    · rw [write_eq_chunkEvents]
      show some (Matches.insertAll [] [],
        { matchers := mb.matchers,
          currentIndex := mb.currentIndex + (([] : List Nat).length : Int) }) =
        some ([], mb)
      simp [insertAll_nil]
    · intro acc k
      rw [List.foldl_nil, show Matches.lookup [] k = none from rfl,
        omax_none_right]
  | cons c cs ih =>
    obtain ⟨es1, ds1, hce1, hw1, hv1⟩ := write_characterize mb c h
    obtain ⟨tables2, mbf, tab2, hwa2, hw2, hvf, hlook2⟩ :=
      ih { matchers := ds1, currentIndex := mb.currentIndex + (c.length : Int) } hv1
    have hwa : mb.writeAll (c :: cs) =
        some (Matches.insertAll [] es1 :: tables2, mbf) := by
      simp only [matcher.writeAll, hw1]
      rw [hwa2]
    rw [write_eq_chunkEvents] at hw2
    cases hce2 : chunkEvents (mb.currentIndex + (c.length : Int)) cs.flatten ds1 with
    | none =>
      rw [hce2] at hw2
      cases hw2
    | some p =>
      obtain ⟨es2, ds2⟩ := p
      rw [hce2] at hw2
      dsimp only at hw2
      obtain ⟨htab2, hmbf⟩ :
          Matches.insertAll [] es2 = tab2 ∧
            ({ matchers := ds2,
               currentIndex := mb.currentIndex + (c.length : Int) +
                 (cs.flatten.length : Int) } : matcher) = mbf := by
        injection hw2 with hw2'
        exact Prod.mk.injEq .. |>.mp hw2'
      have hsingle : mb.write ((c :: cs).flatten) =
          some (Matches.insertAll [] (es1 ++ es2), mbf) := by
        rw [write_eq_chunkEvents,
          show (c :: cs).flatten = c ++ cs.flatten from rfl, chunkEvents_append, hce1]
        dsimp only
        rw [hce2]
        dsimp only
        rw [← hmbf]
        have hlen : mb.currentIndex + ((c ++ cs.flatten).length : Int) =
            mb.currentIndex + (c.length : Int) + (cs.flatten.length : Int) := by
          push_cast [List.length_append]
          ring
        rw [hlen]
      refine ⟨Matches.insertAll [] es1 :: tables2, mbf,
        Matches.insertAll [] (es1 ++ es2), hwa, hsingle, hvf, ?_⟩
      intro acc k
      have ht1 : emax (Matches.insertAll [] es1) k = emax es1 k := by
        rw [emax_eq_lookup _ _ (nodup_insertAll es1 [] List.nodup_nil),
          lookup_insertAll, show Matches.lookup [] k = none from rfl,
          omax_none_left]
      calc Matches.lookup
            ((Matches.insertAll [] es1 :: tables2).foldl Matches.insertAll acc) k
          = Matches.lookup (tables2.foldl Matches.insertAll
              (Matches.insertAll acc (Matches.insertAll [] es1))) k := by
            rw [List.foldl_cons]
        _ = omax (Matches.lookup
              (Matches.insertAll acc (Matches.insertAll [] es1)) k)
              (Matches.lookup tab2 k) := hlook2 _ k
        _ = omax (omax (Matches.lookup acc k) (emax es1 k))
              (Matches.lookup tab2 k) := by
            rw [lookup_insertAll, ht1]
        _ = omax (Matches.lookup acc k)
              (omax (emax es1 k) (Matches.lookup tab2 k)) := omax_assoc _ _ _
        _ = omax (Matches.lookup acc k)
              (Matches.lookup (Matches.insertAll [] (es1 ++ es2)) k) := by
            rw [← htab2, lookup_insertAll, lookup_insertAll, emax_append,
              show Matches.lookup [] k = none from rfl, omax_none_left,
              omax_none_left]

/-- C1 (counterexample): the union of the (offset, length) pairs across
chunked `write` calls is NOT identical to the single-call match table.
With patterns "ab" and "abc" and input "abc" split as "ab" then "c", the
first call returns the pair (0, 2); the single call returns the table
[(0, 3)] in which the entry (0, 2) was overwritten by the keep-longest
insert, so the pair (0, 2) belongs to the union but not to the table. -/
theorem C1_counterexample :
    ((newMatcher [[97, 98], [97, 98, 99]]).write [97, 98]).map Prod.fst =
      some [((0 : Int), 2)] ∧
    ((writeState (newMatcher [[97, 98], [97, 98, 99]]) [97, 98]).write
        [99]).map Prod.fst = some [((0 : Int), 3)] ∧
    ((newMatcher [[97, 98], [97, 98, 99]]).write [97, 98, 99]).map Prod.fst =
      some [((0 : Int), 3)] ∧
    ((0 : Int), 2) ∈ writeTableD (newMatcher [[97, 98], [97, 98, 99]]) [97, 98] ++
      writeTableD (writeState (newMatcher [[97, 98], [97, 98, 99]]) [97, 98]) [99] ∧
    ((0 : Int), 2) ∉ writeTableD (newMatcher [[97, 98], [97, 98, 99]]) [97, 98, 99] := by
  refine ⟨by decide, by decide, by decide, by decide, by decide⟩

/-- C1 (amended): chunking invariance holds for the keep-longest merge of
the per-call tables rather than for their plain union of pairs: for every
list of non-empty patterns and every partition of a byte sequence into
consecutive chunks, merging the per-call tables with the keep-longest
insert yields, at every offset, exactly the entry of the table returned by
feeding the whole sequence to a fresh matcher in one call; the final
matcher states also coincide. -/
theorem C1_chunking_amended (patterns chunks : List (List Nat))
    (h : ∀ p ∈ patterns, p ≠ []) :
    ∃ tables mbf tab,
      (newMatcher patterns).writeAll chunks = some (tables, mbf) ∧
      (newMatcher patterns).write chunks.flatten = some (tab, mbf) ∧
      ∀ k, Matches.lookup (mergeAll tables) k = Matches.lookup tab k := by
  have hv : matcherValid (newMatcher patterns) := by
    intro d hd
    simp only [newMatcher, List.mem_map] at hd
    obtain ⟨p, hp, rfl⟩ := hd
    show 0 < p.length
    exact List.length_pos.mpr (h p hp)
  obtain ⟨tables, mbf, tab, hwa, hw, _, hlook⟩ :=
    writeAll_characterize chunks (newMatcher patterns) hv
  refine ⟨tables, mbf, tab, hwa, hw, fun k => ?_⟩
  rw [show mergeAll tables = tables.foldl Matches.insertAll [] from rfl,
    hlook [] k, show Matches.lookup [] k = none from rfl, omax_none_left]

/-- Witness for C1 (amended) at patterns ["a"] and chunks ["a"], ["a"]. -/
theorem C1_chunking_amended_witness :
    (∀ p ∈ [[(97 : Nat)]], p ≠ []) ∧
    (∃ tables mbf tab,
      (newMatcher [[(97 : Nat)]]).writeAll [[97], [97]] = some (tables, mbf) ∧
      (newMatcher [[(97 : Nat)]]).write [[(97 : Nat)], [97]].flatten =
        some (tab, mbf) ∧
      ∀ k, Matches.lookup (mergeAll tables) k = Matches.lookup tab k) :=
  ⟨by decide, C1_chunking_amended [[97]] [[97], [97]] (by decide)⟩

/-- C2 (counterexample): with patterns "aa" and "aaa" and the single-call
input "aaaa", the returned table has no entry at offset 1: after reporting
a completion a detector resets its cursor to 0, so the overlapping
occurrences starting at offset 1 are never reported. This refutes the
claim that offset 1 is present. -/
theorem C2_counterexample :
    ((newMatcher [[97, 97], [97, 97, 97]]).write [97, 97, 97, 97]).isSome =
      true ∧
    Matches.lookup
      (writeTableD (newMatcher [[97, 97], [97, 97, 97]]) [97, 97, 97, 97]) 1 =
      none := by
  refine ⟨by decide, by decide⟩

/-- C2 (amended): with patterns "aa" and "aaa", a single `write` call on
"aaaa" returns exactly the table [(0, 3), (2, 2)]: offset 0 maps to length
3 (the longer pattern wins the keep-longest merge at that offset), offset
2 maps to length 2, and offset 1 is absent because each detector resets to
cursor 0 after a completion and does not rediscover overlapping
occurrences of its own pattern. -/
theorem C2_amended :
    ((newMatcher [[97, 97], [97, 97, 97]]).write [97, 97, 97, 97]).map
      Prod.fst = some [((0 : Int), 3), ((2 : Int), 2)] ∧
    Matches.lookup
      (writeTableD (newMatcher [[97, 97], [97, 97, 97]]) [97, 97, 97, 97]) 0 =
      some 3 ∧
    Matches.lookup
      (writeTableD (newMatcher [[97, 97], [97, 97, 97]]) [97, 97, 97, 97]) 2 =
      some 2 ∧
    Matches.lookup
      (writeTableD (newMatcher [[97, 97], [97, 97, 97]]) [97, 97, 97, 97]) 1 =
      none := by
  refine ⟨by decide, by decide, by decide, by decide⟩

/-- C3 (code evaluated at the failing input): `newMatcher` performs no
validation, so constructing a matcher whose pattern list contains the
zero-length pattern succeeds and hands back a matcher holding a detector
for the empty pattern, contrary to the claimed construction-time
configuration error; the fault only surfaces on the first `writeByte` of
that detector, as the out-of-bounds read `m.sequence[0]` (the Go panic,
`none` in this embedding). -/
theorem C3_empty_pattern_construction :
    (newMatcher [([] : List Nat)]).matchers =
      [{ sequence := [], currentIndex := 0 }] ∧
    ∀ b, sequenceDetector.writeByte { sequence := [], currentIndex := 0 } b =
      none :=
  ⟨rfl, fun _ => rfl⟩

theorem shiftOk_iff (seq : List Nat) (cursor offset : Nat) :
    shiftOk seq cursor offset = true ↔
      ∀ i, i < cursor - offset → seq.getD i 0 = seq.getD (i + offset) 0 := by
  simp [shiftOk, List.all_eq_true, List.mem_range, beq_iff_eq]

theorem find?_range'_min (p : Nat → Bool) :
    ∀ (n s r : Nat), (List.range' s n).find? p = some r →
      ∀ o, s ≤ o → o < r → p o = false := by
  intro n
  induction n with
  | zero =>
    intro s r h
    cases h
  | succ n ih =>
    intro s r h o hso hor
    rw [show List.range' s (n + 1) = s :: List.range' (s + 1) n from rfl] at h
    by_cases hp : p s
    · rw [List.find?_cons_of_pos _ hp] at h
      injection h with h'
      omega
    · rw [List.find?_cons_of_neg _ hp] at h
      rcases Nat.eq_or_lt_of_le hso with hs | hs
      · rw [← hs]
        exact Bool.eq_false_iff.mpr hp
      · exact ih (s + 1) r h o hs hor

/-- C4: for every `write` call on a wellformed matcher, the call succeeds,
the returned table is built by inserting exactly this call's match events
into a table created fresh for the call (`Matches.insertAll [] es`, so
nothing carries over from prior calls), and every event has the form
`(streamOffset + i - L + 1, L)` where a detector of pattern length `L`
reports a match on chunk byte `i` — an offset that may lie before the
current chunk when `L` exceeds `i + 1`. -/
theorem C4_write_contract (mb : matcher) (input : List Nat)
    (h : matcherValid mb) :
    ∃ es dsf, chunkEvents mb.currentIndex input mb.matchers = some (es, dsf) ∧
      mb.write input = some (Matches.insertAll [] es,
        { matchers := dsf,
          currentIndex := mb.currentIndex + (input.length : Int) }) ∧
      ∀ e ∈ es, ∃ i, i < input.length ∧
        ∃ esi dsi, chunkEvents mb.currentIndex (input.take i) mb.matchers =
            some (esi, dsi) ∧
          ∃ d ∈ dsi, ∃ d2, d.writeByte (input.getD i 0) = some (true, d2) ∧
            e = (mb.currentIndex + (i : Int) - (d.sequence.length : Int) + 1,
              d.sequence.length) := by
  obtain ⟨es, dsf, hce, hw, _⟩ := write_characterize mb input h
  exact ⟨es, dsf, hce, hw,
    chunkEvents_shape input mb.currentIndex mb.matchers h es dsf hce⟩

/-- Witness for C4 at the single pattern [5] and the chunk [5]. -/
theorem C4_write_contract_witness :
    matcherValid (newMatcher [[5]]) ∧
    (∃ es dsf,
      chunkEvents (newMatcher [[5]]).currentIndex [5]
          (newMatcher [[5]]).matchers = some (es, dsf) ∧
      (newMatcher [[5]]).write [5] = some (Matches.insertAll [] es,
        { matchers := dsf,
          currentIndex := (newMatcher [[5]]).currentIndex +
            (([5] : List Nat).length : Int) }) ∧
      ∀ e ∈ es, ∃ i, i < ([5] : List Nat).length ∧
        ∃ esi dsi, chunkEvents (newMatcher [[5]]).currentIndex
            (([5] : List Nat).take i) (newMatcher [[5]]).matchers =
            some (esi, dsi) ∧
          ∃ d ∈ dsi, ∃ d2,
            d.writeByte (([5] : List Nat).getD i 0) = some (true, d2) ∧
            e = ((newMatcher [[5]]).currentIndex + (i : Int) -
              (d.sequence.length : Int) + 1, d.sequence.length)) :=
  ⟨by decide, C4_write_contract (newMatcher [[5]]) [5] (by decide)⟩

/-- C5: on a wellformed detector (non-empty pattern, cursor a valid index)
`writeByte` is total for every byte: it returns `some` (no out-of-bounds
read), the result is a boolean paired with a detector over the same
pattern whose cursor is again a valid index; fuel 2 computes the same
function as any larger fuel, which is the at-most-one-retry bound on the
recursion; and `write` on a wellformed matcher succeeds on every chunk,
the empty chunk included. -/
theorem C5_totality (d : sequenceDetector) (b : Nat) (mb : matcher)
    (input : List Nat) (hd : detectorValid d) (hmb : matcherValid mb) :
    (∃ r d', d.writeByte b = some (r, d') ∧ d'.sequence = d.sequence ∧
      detectorValid d') ∧
    (∀ n, writeByteFuel (n + 2) d b = d.writeByte b) ∧
    (mb.write input).isSome = true := by
  refine ⟨writeByte_total d b hd, fun n => writeByteFuel_ge_two n d b, ?_⟩
  obtain ⟨es, dsf, _, hw, _⟩ := write_characterize mb input hmb
  rw [hw]
  rfl

/-- Witness for C5 at the detector over pattern [5] with cursor 0, byte 7,
and the matcher over pattern [5] with the empty chunk. -/
theorem C5_totality_witness :
    detectorValid { sequence := [5], currentIndex := 0 } ∧
    matcherValid (newMatcher [[5]]) ∧
    ((∃ r d',
      sequenceDetector.writeByte { sequence := [5], currentIndex := 0 } 7 =
        some (r, d') ∧
      d'.sequence = ({ sequence := [5], currentIndex := 0 } :
        sequenceDetector).sequence ∧ detectorValid d') ∧
    (∀ n, writeByteFuel (n + 2) { sequence := [5], currentIndex := 0 } 7 =
      sequenceDetector.writeByte { sequence := [5], currentIndex := 0 } 7) ∧
    ((newMatcher [[5]]).write []).isSome = true) :=
  ⟨by decide, by decide,
    C5_totality { sequence := [5], currentIndex := 0 } 7 (newMatcher [[5]]) []
      (by decide) (by decide)⟩

/-- C6: for a detector with non-empty pattern and cursor in [1, len),
`findShift` returns the smallest offset in [1, cursor] such that
`pattern[0 .. cursor-offset)` equals `pattern[offset .. cursor)` byte for
byte; offset = cursor satisfies the comparison vacuously, and when no
offset smaller than the cursor satisfies it the result is the cursor
itself (the lazily computed KMP failure-function shift). -/
theorem C6_findShift_least (d : sequenceDetector)
    (h1 : 1 ≤ d.currentIndex) (h2 : d.currentIndex < d.sequence.length) :
    1 ≤ d.findShift ∧ d.findShift ≤ d.currentIndex ∧
      (∀ i, i < d.currentIndex - d.findShift →
        d.sequence.getD i 0 = d.sequence.getD (i + d.findShift) 0) ∧
      (∀ o, 1 ≤ o → o < d.findShift →
        ∃ i, i < d.currentIndex - o ∧
          d.sequence.getD i 0 ≠ d.sequence.getD (i + o) 0) ∧
      ((∀ o, 1 ≤ o → o < d.currentIndex →
          ∃ i, i < d.currentIndex - o ∧
            d.sequence.getD i 0 ≠ d.sequence.getD (i + o) 0) →
        d.findShift = d.currentIndex) := by
  have hle := findShift_le d
  have hpos := findShift_pos d h1
  have hok : ∀ i, i < d.currentIndex - d.findShift →
      d.sequence.getD i 0 = d.sequence.getD (i + d.findShift) 0 := by
    unfold sequenceDetector.findShift
    cases h : (List.range' 1 d.currentIndex).find?
        (shiftOk d.sequence d.currentIndex) with
    | none =>
      intro i hi
      simp at hi
    | some o =>
      intro i hi
      exact (shiftOk_iff d.sequence d.currentIndex o).mp (List.find?_some h) i hi
  have hmin : ∀ o, 1 ≤ o → o < d.findShift →
      ∃ i, i < d.currentIndex - o ∧
        d.sequence.getD i 0 ≠ d.sequence.getD (i + o) 0 := by
    intro o ho1 ho2
    have hfail : shiftOk d.sequence d.currentIndex o = false := by
      unfold sequenceDetector.findShift at ho2
      cases h : (List.range' 1 d.currentIndex).find?
          (shiftOk d.sequence d.currentIndex) with
      | none =>
        rw [h] at ho2
        dsimp only at ho2
        have homem : o ∈ List.range' 1 d.currentIndex := by
          rw [List.mem_range'_1]
          constructor
          · exact ho1
          · show o < 1 + d.currentIndex
            omega
        have := List.find?_eq_none.mp h o homem
        exact Bool.eq_false_iff.mpr this
      | some r =>
        rw [h] at ho2
        dsimp only at ho2
        exact find?_range'_min _ d.currentIndex 1 r h o ho1 ho2
    have := (shiftOk_iff d.sequence d.currentIndex o).not.mp
      (by rw [hfail]; exact Bool.false_ne_true)
    push_neg at this
    exact this
  refine ⟨hpos, hle, hok, hmin, fun hall => ?_⟩
  rcases Nat.lt_or_ge d.findShift d.currentIndex with hlt | hge
  · obtain ⟨i, hi, hne⟩ := hall d.findShift hpos hlt
    exact absurd (hok i hi) hne
  · omega

/-- Witness for C6 at the pattern "foofoobar" with cursor 6, where the
shift is 3. -/
theorem C6_findShift_least_witness :
    1 ≤ ({ sequence := [102, 111, 111, 102, 111, 111, 98, 97, 114], currentIndex := 6 } : sequenceDetector).currentIndex ∧
    ({ sequence := [102, 111, 111, 102, 111, 111, 98, 97, 114], currentIndex := 6 } : sequenceDetector).currentIndex < ({ sequence := [102, 111, 111, 102, 111, 111, 98, 97, 114], currentIndex := 6 } : sequenceDetector).sequence.length ∧
    sequenceDetector.findShift { sequence := [102, 111, 111, 102, 111, 111, 98, 97, 114], currentIndex := 6 } = 3 ∧
    (1 ≤ sequenceDetector.findShift { sequence := [102, 111, 111, 102, 111, 111, 98, 97, 114], currentIndex := 6 } ∧
      sequenceDetector.findShift { sequence := [102, 111, 111, 102, 111, 111, 98, 97, 114], currentIndex := 6 } ≤ 6) :=
  ⟨by decide, by decide, by decide,
    have h := C6_findShift_least { sequence := [102, 111, 111, 102, 111, 111, 98, 97, 114], currentIndex := 6 } (by decide) (by decide)
    ⟨h.1, h.2.1⟩⟩

/-- C7: self-overlap recovery. For the single 9-byte pattern "foofoobar"
and the 12-byte input "foofoofoobar" fed in one call, the returned table
is exactly [(3, 9)]: offset 3 maps to length 9, the occurrence beginning
at the second "foo", recovered through the cursor shift after the failed
first attempt. -/
theorem C7_self_overlap :
    ((newMatcher [[102, 111, 111, 102, 111, 111, 98, 97, 114]]).write
        [102, 111, 111, 102, 111, 111, 102, 111, 111, 98, 97, 114]).map
      Prod.fst = some [((3 : Int), 9)] ∧
    Matches.lookup
      (writeTableD (newMatcher [[102, 111, 111, 102, 111, 111, 98, 97, 114]])
        [102, 111, 111, 102, 111, 111, 102, 111, 111, 98, 97, 114]) 3 =
      some 9 := by
  refine ⟨by decide, by decide⟩

/-- C8: merge-keep-longest and order independence of `Matches.add`. When
the offset is absent the length is stored; when it is present with a value
no greater than the new length the lookup afterwards yields the new
length; when the stored value is strictly greater the table is returned
unchanged. In particular inserting (5, 2) then (5, 3) and inserting (5, 3)
then (5, 2) both map 5 to 3, and in general the value at an offset is the
maximum of the inserted lengths regardless of insertion order. -/
theorem C8_merge_keep_longest :
    ∀ (m : Matches) (k : Int) (v : Nat),
      (Matches.lookup m k = none →
        Matches.lookup (Matches.add m k v) k = some v) ∧
      (∀ e, Matches.lookup m k = some e → e ≤ v →
        Matches.lookup (Matches.add m k v) k = some v) ∧
      (∀ e, Matches.lookup m k = some e → v < e → Matches.add m k v = m) ∧
      (Matches.lookup (Matches.add (Matches.add [] 5 2) 5 3) 5 = some 3 ∧
        Matches.lookup (Matches.add (Matches.add [] 5 3) 5 2) 5 = some 3) ∧
      (∀ v2, Matches.lookup (Matches.add (Matches.add m k v) k v2) k =
        Matches.lookup (Matches.add (Matches.add m k v2) k v) k) ∧
      (∀ v2, Matches.lookup
          (Matches.add (Matches.add ([] : Matches) k v) k v2) k =
        some (max v v2)) := by
  intro m k v
  refine ⟨?_, ?_, ?_, ⟨by decide, by decide⟩, ?_, ?_⟩
  · intro h
    rw [lookup_add, h, if_pos rfl, omax_none_left]
  · intro e he hev
    rw [lookup_add, he, if_pos rfl]
    show some (max e v) = some v
    rw [Nat.max_eq_right hev]
  · intro e he hve
    unfold Matches.add
    rw [he]
    dsimp only
    rw [if_neg (by omega)]
  · intro v2
    simp only [lookup_add, eq_self_iff_true, if_true]
    rw [omax_assoc, omax_assoc, omax_comm (some v) (some v2)]
  · intro v2
    simp only [lookup_add, eq_self_iff_true, if_true,
      show Matches.lookup [] k = none from rfl, omax_none_left]
    rfl

/-- Witness for C8: the overwrite clause at the table [(5, 2)] with the
inserted pair (5, 3). -/
theorem C8_merge_keep_longest_witness :
    Matches.lookup [((5 : Int), 2)] 5 = some 2 ∧ (2 : Nat) ≤ 3 ∧
    Matches.lookup (Matches.add [((5 : Int), 2)] 5 3) 5 = some 3 :=
  ⟨by decide, by decide,
    (C8_merge_keep_longest [((5 : Int), 2)] 5 3).2.1 2 (by decide) (by decide)⟩

/-- C9: stream-offset accounting. A successful `write` advances
`currentIndex` by exactly the chunk length (so the counter never
decreases); after any successful sequence of `write` calls the counter
equals its initial value plus the sum of all chunk lengths, independent of
the chunking; and `write` on the empty chunk returns the empty table and
the unchanged matcher. -/
theorem C9_stream_offset :
    (∀ (mb : matcher) (input : List Nat) (res : Matches) (mb' : matcher),
      mb.write input = some (res, mb') →
        mb'.currentIndex = mb.currentIndex + (input.length : Int) ∧
        mb.currentIndex ≤ mb'.currentIndex) ∧
    (∀ (chunks : List (List Nat)) (mb : matcher) (tables : List Matches)
        (mbf : matcher), mb.writeAll chunks = some (tables, mbf) →
      mbf.currentIndex = mb.currentIndex +
        ((chunks.map List.length).sum : Int)) ∧
    (∀ mb : matcher, mb.write [] = some ([], mb)) := by
  have hone : ∀ (mb : matcher) (input : List Nat) (res : Matches)
      (mb' : matcher), mb.write input = some (res, mb') →
        mb'.currentIndex = mb.currentIndex + (input.length : Int) := by
    intro mb input res mb' h
    unfold matcher.write at h
    cases hl : writeLoop mb.currentIndex 0 input mb.matchers [] with
    | none =>
      rw [hl] at h
      cases h
    | some p =>
      obtain ⟨r, ds⟩ := p
      rw [hl] at h
      dsimp only at h
      injection h with h'
      rw [← (Prod.mk.injEq .. |>.mp h').2]
  refine ⟨?_, ?_, ?_⟩
  · intro mb input res mb' h
    have heq := hone mb input res mb' h
    refine ⟨heq, ?_⟩
    rw [heq]
    have : (0 : Int) ≤ (input.length : Int) := Int.natCast_nonneg _
    omega
  · intro chunks
    induction chunks with
    | nil =>
      intro mb tables mbf h
      unfold matcher.writeAll at h
      injection h with h'
      rw [← (Prod.mk.injEq .. |>.mp h').2]
      simp
    | cons c cs ih =>
      intro mb tables mbf h
      unfold matcher.writeAll at h
      cases hw : mb.write c with
      | none =>
        rw [hw] at h
        cases h
      | some p =>
        obtain ⟨res1, mb1⟩ := p
        rw [hw] at h
        dsimp only at h
        cases hwa : mb1.writeAll cs with
        | none =>
          rw [hwa] at h
          cases h
        | some q =>
          obtain ⟨tables2, mbf2⟩ := q
          rw [hwa] at h
          dsimp only at h
          injection h with h'
          obtain ⟨-, h2⟩ := Prod.mk.injEq .. |>.mp h'
          rw [← h2, ih mb1 tables2 mbf2 hwa, hone mb c res1 mb1 hw]
          push_cast [List.map_cons, List.sum_cons]
          ring
  · intro mb
    rw [write_eq_chunkEvents]
    show some (Matches.insertAll [] [],
      { matchers := mb.matchers,
        currentIndex := mb.currentIndex + (([] : List Nat).length : Int) }) =
      some ([], mb)
    simp [insertAll_nil]

/-- Witness for C9 at the matcher over pattern [1]: one call with the
non-matching chunk [2], the chunk list [[2]], and the empty chunk. -/
theorem C9_stream_offset_witness :
    ((newMatcher [[1]]).write [2] =
      some ([], { matchers := [{ sequence := [1], currentIndex := 0 }], currentIndex := 1 })) ∧
    (({ matchers := [{ sequence := [1], currentIndex := 0 }], currentIndex := 1 } : matcher).currentIndex =
        (newMatcher [[1]]).currentIndex + (([2] : List Nat).length : Int) ∧
      (newMatcher [[1]]).currentIndex ≤
        ({ matchers := [{ sequence := [1], currentIndex := 0 }], currentIndex := 1 } : matcher).currentIndex) ∧
    ((newMatcher [[1]]).writeAll [[2]] =
      some ([[]], { matchers := [{ sequence := [1], currentIndex := 0 }], currentIndex := 1 })) ∧
    (({ matchers := [{ sequence := [1], currentIndex := 0 }], currentIndex := 1 } : matcher).currentIndex =
      (newMatcher [[1]]).currentIndex + ((([[2]] : List (List Nat)).map List.length).sum : Int)) :=
  ⟨by decide,
    C9_stream_offset.1 (newMatcher [[1]]) [2] []
      { matchers := [{ sequence := [1], currentIndex := 0 }], currentIndex := 1 } (by decide),
    by decide,
    C9_stream_offset.2.1 [[2]] (newMatcher [[1]]) [[]]
      { matchers := [{ sequence := [1], currentIndex := 0 }], currentIndex := 1 } (by decide)⟩

/-- C10: for every detector with cursor at least 1 the search loop of
`findShift` always finds an offset in [1, cursor] (offset = cursor makes
the inner comparison vacuous), so the fallback return after the loop runs
only when the cursor is 0; and on a mismatch with cursor at least 1 the
shift strictly decreases the cursor, which bounds the single retry of
`writeByte`. -/
theorem C10_findShift_loop (d : sequenceDetector) :
    (1 ≤ d.currentIndex →
      ∃ o, (List.range' 1 d.currentIndex).find?
          (shiftOk d.sequence d.currentIndex) = some o ∧ 1 ≤ o ∧
        o ≤ d.currentIndex) ∧
    ((List.range' 1 d.currentIndex).find?
        (shiftOk d.sequence d.currentIndex) = none → d.currentIndex = 0) ∧
    (1 ≤ d.currentIndex → d.currentIndex - d.findShift < d.currentIndex) := by
  refine ⟨?_, ?_, ?_⟩
  · intro h1
    obtain ⟨o, ho⟩ := Option.isSome_iff_exists.mp (find?_shiftOk_isSome d h1)
    have hmem := List.mem_range'_1.mp (List.mem_of_find?_eq_some ho)
    exact ⟨o, ho, by omega, by omega⟩
  · intro hnone
    by_contra hne
    have h1 : 1 ≤ d.currentIndex := Nat.one_le_iff_ne_zero.mpr hne
    have hs := find?_shiftOk_isSome d h1
    rw [hnone] at hs
    simp at hs
  · intro h1
    exact Nat.sub_lt (Nat.lt_of_lt_of_le Nat.zero_lt_one h1)
      (findShift_pos d h1)

/-- Witness for C10 at the detector over pattern [5, 5] with cursor 1. -/
theorem C10_findShift_loop_witness :
    1 ≤ ({ sequence := [5, 5], currentIndex := 1 } : sequenceDetector).currentIndex ∧
    (∃ o, (List.range' 1 ({ sequence := [5, 5], currentIndex := 1 } : sequenceDetector).currentIndex).find?
        (shiftOk [5, 5] 1) = some o ∧ 1 ≤ o ∧ o ≤ 1) ∧
    (1 ≤ ({ sequence := [5, 5], currentIndex := 1 } : sequenceDetector).currentIndex →
      ({ sequence := [5, 5], currentIndex := 1 } : sequenceDetector).currentIndex -
        sequenceDetector.findShift { sequence := [5, 5], currentIndex := 1 } <
        ({ sequence := [5, 5], currentIndex := 1 } : sequenceDetector).currentIndex) :=
  ⟨by decide,
    (C10_findShift_loop { sequence := [5, 5], currentIndex := 1 }).1 (by decide),
    (C10_findShift_loop { sequence := [5, 5], currentIndex := 1 }).2.2⟩
